import Mathlib

/-!
Verification of the furigana annotation-matching core of the
obsidian-markdown-furigana-plus plugin (src/main.ts).

Strings are modelled as `List Char` (Unicode code points).  The JavaScript
regular expression produced by `bodyToRegex` is modelled as a list of pattern
elements (`RElem`) together with a backtracking matcher (`matchElems`) that
implements exactly the anchored, leftmost-greedy semantics of the JS engine
for the fragment of regexes the source emits: literal characters, the
capturing group `([^+.]+)` (greedy one-or-more), the capturing group
`([+.]?)` (greedy optional), the non-capturing `[+.]?`, and the non-capturing
`\.?`.  The matcher is written in continuation-passing style over a right
fold so that it is structurally recursive and evaluates inside the kernel.
-/

namespace FuriganaPlus

/-- Character class test for kana, mirroring
`kanaRegex = /[぀-ゖァ-ヺｦ-ﾟー]/` in src/main.ts
(the final `ー` is U+30FC). -/
def isKana (c : Char) : Bool :=
  decide ((0x3040 ≤ c.toNat ∧ c.toNat ≤ 0x3096) ∨
    (0x30a1 ≤ c.toNat ∧ c.toNat ≤ 0x30fa) ∨
    (0xff66 ≤ c.toNat ∧ c.toNat ≤ 0xff9f) ∨
    c.toNat = 0x30fc)

/-- Character class test for kanji, mirroring
`kanjiRegex = /[㐀-龯]/` in src/main.ts. -/
def isKanji (c : Char) : Bool :=
  decide (0x3400 ≤ c.toNat ∧ c.toNat ≤ 0x9faf)

/-- A character allowed inside the capturing group `([^+.]+)`:
anything except an ASCII plus or an ASCII dot. -/
def isFuriChar (c : Char) : Bool :=
  !(c == '+' || c == '.')

/-- A character of the class `[+.]`: ASCII plus or ASCII dot. -/
def isCS (c : Char) : Bool :=
  c == '+' || c == '.'

/-- The elements of the regexes emitted by `bodyToRegex`:
a literal character, the group `([^+.]+)` (`furiGroup`), the group
`([+.]?)` (`csGroup`), the non-capturing `[+.]?` (`cs`) and the
non-capturing `\.?` (`dotOpt`). -/
inductive RElem where
  | lit (c : Char)
  | furiGroup
  | csGroup
  | cs
  | dotOpt
deriving DecidableEq, Repr

/-- The ordered list of captured groups of a successful match. -/
abbrev Groups := List (List Char)

/-- The continuation for the end of the element list: the `$` anchor.
Succeeds (with no further groups) exactly on the empty remainder. -/
def baseMatch (s : List Char) : Option Groups :=
  if s = [] then some [] else none

/-- Backtracking matcher for the greedy group `([^+.]+)`: `acc` is the
(reversed-free) list of characters consumed so far.  Extending the group is
tried before stopping, which is exactly the greedy backtracking order of the
JS engine; the captured group is consed onto the groups of the
continuation `k`. -/
def goFuri (k : List Char → Option Groups) (acc : List Char) :
    List Char → Option Groups
  | [] => if acc = [] then none else (k []).map (acc :: ·)
  | x :: xs =>
    if isFuriChar x then
      goFuri k (acc ++ [x]) xs <|>
        (if acc = [] then none else (k (x :: xs)).map (acc :: ·))
    else
      if acc = [] then none else (k (x :: xs)).map (acc :: ·)

/-- One step of the matcher: how a single pattern element transforms the
continuation for the rest of the pattern.  Greedy alternatives are tried
first, as the JS engine does. -/
def elemMatcher : RElem → (List Char → Option Groups) →
    List Char → Option Groups
  | .lit _, _, [] => none
  | .lit c, k, x :: xs => if x = c then k xs else none
  | .dotOpt, k, [] => k []
  | .dotOpt, k, x :: xs =>
    if x = '.' then k xs <|> k (x :: xs) else k (x :: xs)
  | .cs, k, [] => k []
  | .cs, k, x :: xs =>
    if isCS x then k xs <|> k (x :: xs) else k (x :: xs)
  | .csGroup, k, [] => (k []).map ([] :: ·)
  | .csGroup, k, x :: xs =>
    if isCS x then
      ((k xs).map ([x] :: ·)) <|> ((k (x :: xs)).map ([] :: ·))
    else
      (k (x :: xs)).map ([] :: ·)
  | .furiGroup, k, s => goFuri k [] s

/-- Anchored match of a whole element list against a whole string, returning
the captured groups of the first (greedy, backtracking) successful match,
exactly as `new RegExp("^" + ... + "$").exec` does in the source. -/
def matchElems (elems : List RElem) (s : List Char) : Option Groups :=
  (elems.foldr elemMatcher baseMatch) s

/-- The three values of the `lastType` state variable used by both
`bodyToRegex` and the reconstruction loop of `matchFurigana`. -/
inductive LType where
  | kanji
  | kana
  | other
deriving DecidableEq, Repr

/-- The loop body of `bodyToRegex` (src/main.ts lines 56-79), emitting the
pattern elements for the remaining body characters given the current
`lastType` state. -/
def bodyElemsFrom : LType → List Char → List RElem
  | _, [] => []
  | last, c :: cs =>
    if isKanji c then
      (match last with
        | .kanji => [.csGroup, .furiGroup]
        | .kana => [.cs, .furiGroup]
        | .other => [.furiGroup]) ++ bodyElemsFrom .kanji cs
    else if isKana c then
      (match last with
        | .kanji => [.cs, .lit c]
        | _ => [.lit c]) ++ bodyElemsFrom .kana cs
    else
      (match last with
        | .other => []
        | _ => [.dotOpt]) ++ bodyElemsFrom .other cs

/-- The pattern-element list produced for a body (`lastType` starts as
"other" in the source). -/
def bodyElems (body : List Char) : List RElem :=
  bodyElemsFrom .other body

/-- The regex-source fragment each element contributes, matching the string
constants `combinatorOrSeparatorGroup`, `combinatorOrSeparator`,
`combinatorOnly` and `furiganaGroup` of src/main.ts. -/
def elemStr : RElem → List Char
  | .csGroup => "([+.]?)".data
  | .cs => "[+.]?".data
  | .dotOpt => "\\.?".data
  | .furiGroup => "([^+.]+)".data
  | .lit c => [c]

/-- `bodyToRegex` (src/main.ts lines 47-85): builds the regex string
(starting from the `"^"` anchor) and returns null when that string is empty,
otherwise the compiled pattern.  The emptiness test mirrors
`if (regexStr === "") return null` on the accumulated string. -/
def bodyToRegex (body : List Char) : Option (List RElem) :=
  let regexStr : List Char := '^' :: ((bodyElems body).map elemStr).flatten
  if regexStr = [] then none else some (bodyElems body)

/-- The `FuriganaOptions` class fields (src/main.ts lines 249-273). -/
structure FuriganaOptions where
  fallbackParens : List Char
  extraSeparators : List Char
  extraCombinators : List Char
deriving DecidableEq, Repr

/-- The `FuriganaOptions` constructor: it takes no arguments and builds the
extra separator set from the constant empty string (`("").replace(...)`) and
the extra combinator set from the not-yet-assigned field
(`this.extraCombinators || ""`), so both extra sets are always empty. -/
def FuriganaOptions.new : FuriganaOptions :=
  { fallbackParens := "【】".data
    extraSeparators := []
    extraCombinators := [] }

/-- JavaScript `\s` membership (the whitespace class used in
`separatorRegex`). -/
def isJsSpace (c : Char) : Bool :=
  decide (c.toNat = 0x9 ∨ c.toNat = 0xa ∨ c.toNat = 0xb ∨ c.toNat = 0xc ∨
    c.toNat = 0xd ∨ c.toNat = 0x20 ∨ c.toNat = 0xa0 ∨ c.toNat = 0x1680 ∨
    (0x2000 ≤ c.toNat ∧ c.toNat ≤ 0x200a) ∨ c.toNat = 0x2028 ∨
    c.toNat = 0x2029 ∨ c.toNat = 0x202f ∨ c.toNat = 0x205f ∨
    c.toNat = 0x3000 ∨ c.toNat = 0xfeff)

/-- Membership in `separatorRegex = [\s.．。・|｜/／ + extraSeparators]`. -/
def isSeparatorChar (opts : FuriganaOptions) (c : Char) : Bool :=
  isJsSpace c || c == '.' || c == '．' || c == '。' || c == '・' ||
    c == '|' || c == '｜' || c == '/' || c == '／' ||
    opts.extraSeparators.contains c

/-- Membership in `combinatorRegex = [+＋ + extraCombinators]`. -/
def isCombinatorChar (opts : FuriganaOptions) (c : Char) : Bool :=
  c == '+' || c == '＋' || opts.extraCombinators.contains c

/-- `cleanFurigana` (src/main.ts lines 199-203): first replace every
separator character by an ASCII dot, then every combinator character by an
ASCII plus (two global single-character replaces, in that order). -/
def cleanFurigana (opts : FuriganaOptions) (furi : List Char) : List Char :=
  (furi.map fun c => if isSeparatorChar opts c then '.' else c).map
    fun c => if isCombinatorChar opts c then '+' else c

/-- The reconstruction loop of `matchFurigana` (src/main.ts lines 137-184).
`grp i` is `match[i + 1]` (the i-th captured group, empty for an
out-of-range index); `idx` is `matchIndex - 1`; `curB`/`curT` are
`curBodyPart`/`curToptextPart`; `res` is the accumulated `result`.  Note
that in the non-kanji branch with `lastType !== "kanji"` the source leaves
`lastType` unchanged. -/
def reconLoop (grp : Nat → List Char) :
    List Char → LType → Nat → List Char → List Char →
    List (List Char × List Char) → List (List Char × List Char)
  | [], _, _, curB, curT, res => res ++ [(curB, curT)]
  | c :: cs, last, idx, curB, curT, res =>
    if isKanji c then
      if last = .kanji then
        if grp idx = ['+'] ∨ grp idx = [] then
          reconLoop grp cs .kanji (idx + 2) (curB ++ [c])
            (curT ++ grp (idx + 1)) res
        else
          reconLoop grp cs .kanji (idx + 2) [c] (grp (idx + 1))
            (res ++ [(curB, curT)])
      else
        reconLoop grp cs .kanji (idx + 1) [c] (grp idx)
          (if curB = [] then res else res ++ [(curB, curT)])
    else
      if last = .kanji then
        reconLoop grp cs (if isKana c then .kana else .other) idx [c] []
          (res ++ [(curB, curT)])
      else
        reconLoop grp cs last idx (curB ++ [c]) curT res

/-- Reconstruction of the aligned pairs from the body and the captured
groups of a successful match (initial state of the loop in src/main.ts
lines 137-141). -/
def reconstruct (body : List Char) (groups : Groups) :
    List (List Char × List Char) :=
  reconLoop (fun i => groups.getD i []) body .other 0 [] [] []

/-- `matchFurigana` (src/main.ts lines 122-185). -/
def matchFurigana (body toptext : List Char) (opts : FuriganaOptions) :
    List (List Char × List Char) :=
  if toptext.head? = some '=' ∨ toptext.head? = some '＝' then
    [(body, toptext.drop 1)]
  else
    match bodyToRegex body with
    | none => [(body, toptext)]
    | some elems =>
      match matchElems elems (cleanFurigana opts toptext) with
      | none => [(body, toptext)]
      | some groups => reconstruct body groups

/-- `rubifyEveryCharacter` (src/main.ts lines 236-247): strip the leading
asterisk, default the mark to `●` when nothing follows it, and pair every
body character with the mark. -/
def rubifyEveryCharacter (body toptext : List Char) :
    List (List Char × List Char) :=
  body.map fun c => ([c], if toptext.drop 1 = [] then ['●'] else toptext.drop 1)

/-- `furigana` (src/main.ts lines 299-308), the mode dispatcher: a leading
`*` or `＊` (tested by `/^[*＊].?/`, whose optional `.?` never affects the
test) selects emphasis mode, otherwise `matchFurigana` runs.  This is the
`annotate` entry point of the spec. -/
def furigana (body toptext : List Char) (opts : FuriganaOptions) :
    List (List Char × List Char) :=
  if toptext.head? = some '*' ∨ toptext.head? = some '＊' then
    rubifyEveryCharacter body toptext
  else
    matchFurigana body toptext opts

/-- Concatenation of the base segments of an output sequence of pairs. -/
def concatBases (l : List (List Char × List Char)) : List Char :=
  (l.map Prod.fst).flatten

/-- The effect of `cleanFurigana` on a single character: the separator
replacement followed by the combinator replacement. -/
def cleanChar (opts : FuriganaOptions) (c : Char) : Char :=
  if isCombinatorChar opts (if isSeparatorChar opts c then '.' else c) then '+'
  else if isSeparatorChar opts c then '.' else c

/-- Does a string begin with a kanji (logographic) character? -/
def beginsKanji : List Char → Bool
  | [] => false
  | c :: _ => isKanji c

/-- Which pattern elements capture a group: `some true` for the greedy
reading group `([^+.]+)`, `some false` for the boundary group `([+.]?)`,
`none` for the non-capturing elements. -/
def capKind : RElem → Option Bool
  | .furiGroup => some true
  | .csGroup => some false
  | _ => none

/-- Shape predicate relating the capture skeleton of a pattern to a list of
captured groups: a reading group captures a non-empty string of characters
other than ASCII plus and dot, a boundary group captures the empty string,
a plus, or a dot. -/
inductive Fits : List Bool → Groups → Prop where
  | nil : Fits [] []
  | furi (g : List Char) (ks : List Bool) (gs : Groups) :
      g ≠ [] → (∀ c ∈ g, isFuriChar c = true) → Fits ks gs →
      Fits (true :: ks) (g :: gs)
  | bnd (g : List Char) (ks : List Bool) (gs : Groups) :
      g = [] ∨ g = ['+'] ∨ g = ['.'] → Fits ks gs →
      Fits (false :: ks) (g :: gs)

/-- Boolean check that every pair whose base segment begins with a kanji has
a non-empty reading segment containing no ASCII dot and no ASCII plus. -/
def kanjiPairsClean (l : List (List Char × List Char)) : Bool :=
  l.all fun p => !beginsKanji p.1 || (!p.2.isEmpty && p.2.all isFuriChar)

/-- A well-formed reading segment for a logographic run: non-empty and free
of the canonical separator and combinator marks. -/
def goodReading (t : List Char) : Prop :=
  t ≠ [] ∧ ∀ ch ∈ t, isFuriChar ch = true

theorem bodyToRegex_eq (body : List Char) :
    bodyToRegex body = some (bodyElems body) := by
  simp [bodyToRegex]

theorem cleanFurigana_eq_map (opts : FuriganaOptions) (r : List Char) :
    cleanFurigana opts r = r.map (cleanChar opts) := by
  simp only [cleanFurigana, List.map_map]
  apply List.map_congr_left
  intro c _
  simp only [Function.comp_apply, cleanChar]

theorem cleanFurigana_nil_iff (opts : FuriganaOptions) (r : List Char) :
    cleanFurigana opts r = [] ↔ r = [] := by
  rw [cleanFurigana_eq_map]
  simp

theorem matchFurigana_nil (r : List Char) (opts : FuriganaOptions)
    (h1 : r.head? ≠ some '=') (h2 : r.head? ≠ some '＝') :
    matchFurigana [] r opts = [([], r)] := by
  unfold matchFurigana
  rw [if_neg (by tauto), bodyToRegex_eq]
  cases hr : r with
  | nil =>
    simp [bodyElems, bodyElemsFrom, matchElems, baseMatch, cleanFurigana,
      reconstruct, reconLoop]
  | cons c cs =>
    have hne : cleanFurigana opts (c :: cs) ≠ [] := by
      simp [cleanFurigana_nil_iff]
    simp [bodyElems, bodyElemsFrom, matchElems, baseMatch, hne]

theorem matchFurigana_eq (body toptext : List Char) (opts : FuriganaOptions)
    (h : ¬(toptext.head? = some '=' ∨ toptext.head? = some '＝')) :
    matchFurigana body toptext opts =
      match matchElems (bodyElems body) (cleanFurigana opts toptext) with
      | none => [(body, toptext)]
      | some groups => reconstruct body groups := by
  unfold matchFurigana
  rw [if_neg h, bodyToRegex_eq]

theorem concatBases_append (a b : List (List Char × List Char)) :
    concatBases (a ++ b) = concatBases a ++ concatBases b := by
  simp [concatBases]

theorem reconLoop_bases (grp : Nat → List Char) :
    ∀ (cs : List Char) (last : LType) (idx : Nat) (curB curT : List Char)
      (res : List (List Char × List Char)),
      concatBases (reconLoop grp cs last idx curB curT res) =
        concatBases res ++ curB ++ cs := by
  intro cs
  induction cs with
  | nil =>
    intro last idx curB curT res
    simp [reconLoop, concatBases_append, concatBases]
  | cons c cs ih =>
    intro last idx curB curT res
    simp only [reconLoop]
    by_cases hk : isKanji c = true
    · rw [if_pos hk]
      by_cases hl : last = LType.kanji
      · rw [if_pos hl]
        by_cases hc : grp idx = ['+'] ∨ grp idx = []
        · rw [if_pos hc, ih]
          simp [concatBases]
        · rw [if_neg hc, ih]
          simp [concatBases_append, concatBases]
      · rw [if_neg hl, ih]
        by_cases hb : curB = []
        · simp [hb, concatBases_append, concatBases]
        · simp [hb, concatBases_append, concatBases]
    · rw [if_neg hk]
      by_cases hl : last = LType.kanji
      · rw [if_pos hl, ih]
        simp [concatBases_append, concatBases]
      · rw [if_neg hl, ih]
        simp [concatBases]

theorem reconstruct_bases (body : List Char) (groups : Groups) :
    concatBases (reconstruct body groups) = body := by
  rw [reconstruct, reconLoop_bases]
  simp [concatBases]

theorem rubify_bases (body toptext : List Char) :
    concatBases (rubifyEveryCharacter body toptext) = body := by
  induction body with
  | nil => rfl
  | cons c cs ih =>
    simp only [rubifyEveryCharacter, List.map_cons, concatBases] at ih ⊢
    simp_all

/-- C1: for every body, reading and options, and in every mode of the
dispatcher (disabled, emphasis, successful pattern match, and fallback),
concatenating the base segments of the pairs returned by
`furigana` (the spec's `annotate`) reproduces the original body exactly. -/
theorem annotate_roundtrip (body toptext : List Char)
    (opts : FuriganaOptions) :
    concatBases (furigana body toptext opts) = body := by
  unfold furigana
  by_cases hstar : toptext.head? = some '*' ∨ toptext.head? = some '＊'
  · rw [if_pos hstar, rubify_bases]
  · rw [if_neg hstar]
    by_cases heq : toptext.head? = some '=' ∨ toptext.head? = some '＝'
    · unfold matchFurigana
      rw [if_pos heq]
      simp [concatBases]
    · rw [matchFurigana_eq body toptext opts heq]
      cases hm : matchElems (bodyElems body) (cleanFurigana opts toptext) with
      | none => simp [concatBases]
      | some groups => simp [reconstruct_bases]

theorem cleanChar_idem (c : Char) :
    cleanChar FuriganaOptions.new (cleanChar FuriganaOptions.new c) =
      cleanChar FuriganaOptions.new c := by
  by_cases hs : isSeparatorChar FuriganaOptions.new c = true
  · have hcd : isCombinatorChar FuriganaOptions.new '.' = false := by decide
    have h1 : cleanChar FuriganaOptions.new c = '.' := by
      simp [cleanChar, hs, hcd]
    rw [h1]
    decide
  · by_cases hc : isCombinatorChar FuriganaOptions.new c = true
    · have h1 : cleanChar FuriganaOptions.new c = '+' := by
        simp [cleanChar, hs, hc]
      rw [h1]
      decide
    · have h1 : cleanChar FuriganaOptions.new c = c := by
        simp [cleanChar, hs, hc]
      rw [h1, h1]

/-- C8: reading normalization is idempotent for the options value the
source can construct (the `FuriganaOptions` constructor takes no arguments
and always produces the same separator and combinator sets): cleaning an
already-cleaned reading is a no-op. -/
theorem cleanFurigana_idem (r : List Char) :
    cleanFurigana FuriganaOptions.new
        (cleanFurigana FuriganaOptions.new r) =
      cleanFurigana FuriganaOptions.new r := by
  rw [cleanFurigana_eq_map, cleanFurigana_eq_map, List.map_map]
  apply List.map_congr_left
  intro c _
  exact cleanChar_idem c

/-- C5: a reading whose first character is `=` or `＝` disables matching:
the dispatcher returns the single pair of the body and the reading with the
marker stripped, independently of the options (no normalization or pattern
construction affects the result). -/
theorem disabled_mode (body r : List Char) (opts : FuriganaOptions)
    (h : r.head? = some '=' ∨ r.head? = some '＝') :
    furigana body r opts = [(body, r.drop 1)] := by
  have hs : ¬(r.head? = some '*' ∨ r.head? = some '＊') := by
    rcases h with h | h <;> rw [h] <;> decide
  unfold furigana
  rw [if_neg hs]
  unfold matchFurigana
  rw [if_pos h]

/-- C5 witness: the disabled-mode example from the source doc comment. -/
theorem disabled_mode_witness :
    furigana "食べる".data "＝たべる".data FuriganaOptions.new =
      [("食べる".data, "たべる".data)] :=
  (disabled_mode "食べる".data "＝たべる".data FuriganaOptions.new
    (by decide)).trans (by decide)

/-- C6: a reading whose first character is `*` or `＊` selects emphasis
mode: every character of the body is paired with the remainder of the
reading after the asterisk, defaulting to `●` when that remainder is empty;
the pattern builder is never consulted (the result is computed by
`rubifyEveryCharacter` alone, independently of the options). -/
theorem emphasis_mode (body r : List Char) (opts : FuriganaOptions)
    (h : r.head? = some '*' ∨ r.head? = some '＊') :
    furigana body r opts =
      body.map fun c => ([c], if r.drop 1 = [] then ['●'] else r.drop 1) := by
  unfold furigana
  rw [if_pos h]
  rfl

/-- C6 witness: the emphasis-mode examples from the source doc comment. -/
theorem emphasis_mode_witness :
    furigana "だから".data "*".data FuriganaOptions.new =
      [(['だ'], ['●']), (['か'], ['●']), (['ら'], ['●'])] ∧
    furigana "だから".data "*+".data FuriganaOptions.new =
      [(['だ'], ['+']), (['か'], ['+']), (['ら'], ['+'])] :=
  ⟨(emphasis_mode "だから".data "*".data FuriganaOptions.new
      (by decide)).trans (by decide),
   (emphasis_mode "だから".data "*+".data FuriganaOptions.new
      (by decide)).trans (by decide)⟩

/-- C7: `furigana` is total by construction (it is a Lean function defined
for all inputs, and every branch of the source returns a value), and for an
empty body with a reading carrying no leading mode marker it returns the
single pair `("", reading)`: the anchored empty pattern matches only the
empty normalized reading, and both the match branch (empty reading) and the
no-match branch (non-empty reading) produce that pair. -/
theorem empty_body_fallback (r : List Char) (opts : FuriganaOptions)
    (h1 : r.head? ≠ some '=') (h2 : r.head? ≠ some '＝')
    (h3 : r.head? ≠ some '*') (h4 : r.head? ≠ some '＊') :
    furigana [] r opts = [([], r)] := by
  unfold furigana
  rw [if_neg (by tauto)]
  exact matchFurigana_nil r opts h1 h2

/-- C7 witness: an empty body with an ordinary reading. -/
theorem empty_body_fallback_witness :
    furigana [] "たべる".data FuriganaOptions.new = [([], "たべる".data)] :=
  empty_body_fallback "たべる".data FuriganaOptions.new
    (by decide) (by decide) (by decide) (by decide)

/-- C3 counterexample: the claim says `bodyToRegex` returns null if (and
only if) the body is empty, but for the empty body it returns a compiled
pattern (the bare anchors), because the accumulated regex string starts with
the `^` anchor and is therefore never empty. -/
theorem bodyToRegex_empty_not_none : bodyToRegex [] = some [] := by decide

/-- C3 amended: `bodyToRegex` never returns null (the emptiness check
compares against a string that always begins with the `^` anchor, so the
null branch is dead); for an empty body it returns the empty anchored
pattern, which matches only the empty normalized reading, and the caller
still returns the single literal fallback pair (body, reading) — via the
no-match branch when the reading is non-empty, and with the identical
result via the match branch when the reading is empty. -/
theorem bodyToRegex_never_none :
    (∀ body : List Char, bodyToRegex body = some (bodyElems body)) ∧
    ∀ (r : List Char) (opts : FuriganaOptions),
      r.head? ≠ some '=' → r.head? ≠ some '＝' →
      matchFurigana [] r opts = [([], r)] :=
  ⟨bodyToRegex_eq, fun r opts h1 h2 => matchFurigana_nil r opts h1 h2⟩

/-- C3 amended witness: the empty body with a non-empty reading falls back
to the literal pair. -/
theorem bodyToRegex_never_none_witness :
    matchFurigana [] "たべる".data FuriganaOptions.new =
      [([], "たべる".data)] :=
  bodyToRegex_never_none.2 "たべる".data FuriganaOptions.new
    (by decide) (by decide)

/-- C4: for a reading without a leading mode marker, if the pattern built
from the body does not match the normalized reading in its entirety, the
dispatcher returns exactly the single pair of the unmodified original body
and the unmodified original (non-normalized) reading. -/
theorem no_match_fallback (body r : List Char) (opts : FuriganaOptions)
    (h1 : r.head? ≠ some '=') (h2 : r.head? ≠ some '＝')
    (h3 : r.head? ≠ some '*') (h4 : r.head? ≠ some '＊')
    (hm : matchElems (bodyElems body) (cleanFurigana opts r) = none) :
    furigana body r opts = [(body, r)] := by
  unfold furigana
  rw [if_neg (by tauto), matchFurigana_eq body r opts (by tauto), hm]

/-- C4 witness: the no-match example from the source doc comment,
`annotate("食べる", "たべべ") = [("食べる", "たべべ")]`. -/
theorem no_match_fallback_witness :
    furigana "食べる".data "たべべ".data FuriganaOptions.new =
      [("食べる".data, "たべべ".data)] :=
  no_match_fallback "食べる".data "たべべ".data FuriganaOptions.new
    (by decide) (by decide) (by decide) (by decide) (by decide)

/-- C2 counterexample: `annotate("可愛い犬", "か・わい・い・いぬ")` does not
return the pair `("い", "い")` claimed for the phonetic character: kana body
characters always start a pair whose reading segment is empty (src/main.ts
line 173 sets `curToptextPart = ""`). -/
theorem disambiguated_match_not_claimed :
    furigana "可愛い犬".data "か・わい・い・いぬ".data FuriganaOptions.new ≠
      [(['可'], ['か']), (['愛'], ['わ', 'い']), (['い'], ['い']),
        (['犬'], ['い', 'ぬ'])] := by
  decide

/-- C2 amended: `annotate("可愛い犬", "か・わい・い・いぬ")` with default
options returns exactly the four pairs
`[("可","か"), ("愛","わい"), ("い",""), ("犬","いぬ")]`: the phonetic
character `い` forms its own pair whose reading segment is empty (the
literal `い` of the reading is consumed by the pattern but not attached to
the pair). -/
theorem disambiguated_match :
    furigana "可愛い犬".data "か・わい・い・いぬ".data FuriganaOptions.new =
      [(['可'], ['か']), (['愛'], ['わ', 'い']), (['い'], []),
        (['犬'], ['い', 'ぬ'])] := by
  decide

/-- C9: the `FuriganaOptions` constructor takes no arguments and builds the
extra separator set from a constant empty string, so no options value with
`_` as an extra separator can be constructed; consequently `_` in a reading
is not treated as a separator: with the only constructible options,
`annotate("可愛", "か_わい")` keeps the underscore inside one greedy reading
group and returns `[("可愛","か_わい")]`, while the canonical `.` separator
in the same position yields `[("可","か"), ("愛","わい")]`. -/
theorem extra_separator_ignored :
    FuriganaOptions.new.extraSeparators = [] ∧
    furigana "可愛".data "か_わい".data FuriganaOptions.new =
      [("可愛".data, "か_わい".data)] ∧
    furigana "可愛".data "か.わい".data FuriganaOptions.new =
      [(['可'], ['か']), (['愛'], ['わ', 'い'])] := by
  refine ⟨rfl, by decide, by decide⟩

theorem option_orElse_eq_some {α : Type} {a b : Option α} {x : α}
    (h : (a <|> b) = some x) : a = some x ∨ b = some x := by
  cases a with
  | none => right; simpa using h
  | some y => left; simpa using h

theorem goFuri_fits {k : List Char → Option Groups} {P : Groups → Prop}
    (hk : ∀ s gs, k s = some gs → P gs) :
    ∀ (s acc : List Char) (gs : Groups),
      (∀ c ∈ acc, isFuriChar c = true) →
      goFuri k acc s = some gs →
      ∃ g gs', gs = g :: gs' ∧ g ≠ [] ∧
        (∀ c ∈ g, isFuriChar c = true) ∧ P gs' := by
  intro s
  induction s with
  | nil =>
    intro acc gs hacc h
    simp only [goFuri] at h
    by_cases ha : acc = []
    · rw [if_pos ha] at h
      exact absurd h (by simp)
    · rw [if_neg ha] at h
      obtain ⟨gs', hk', rfl⟩ := Option.map_eq_some'.mp h
      exact ⟨acc, gs', rfl, ha, hacc, hk _ _ hk'⟩
  | cons x xs ih =>
    intro acc gs hacc h
    simp only [goFuri] at h
    by_cases hf : isFuriChar x = true
    · rw [if_pos hf] at h
      rcases option_orElse_eq_some h with h' | h'
      · refine ih (acc ++ [x]) gs ?_ h'
        intro c hc
        rcases List.mem_append.mp hc with hc | hc
        · exact hacc c hc
        · rw [List.mem_singleton.mp hc]; exact hf
      · by_cases ha : acc = []
        · rw [if_pos ha] at h'
          exact absurd h' (by simp)
        · rw [if_neg ha] at h'
          obtain ⟨gs', hk', rfl⟩ := Option.map_eq_some'.mp h'
          exact ⟨acc, gs', rfl, ha, hacc, hk _ _ hk'⟩
    · rw [if_neg hf] at h
      by_cases ha : acc = []
      · rw [if_pos ha] at h
        exact absurd h (by simp)
      · rw [if_neg ha] at h
        obtain ⟨gs', hk', rfl⟩ := Option.map_eq_some'.mp h
        exact ⟨acc, gs', rfl, ha, hacc, hk _ _ hk'⟩

theorem matchElems_fits :
    ∀ (elems : List RElem) (s : List Char) (gs : Groups),
      matchElems elems s = some gs → Fits (elems.filterMap capKind) gs := by
  intro elems
  induction elems with
  | nil =>
    intro s gs h
    have h' : baseMatch s = some gs := h
    unfold baseMatch at h'
    by_cases hs : s = []
    · rw [if_pos hs] at h'
      obtain rfl : ([] : Groups) = gs := Option.some.inj h'
      simpa [capKind] using Fits.nil
    · rw [if_neg hs] at h'
      exact absurd h' (by simp)
  | cons e rest ih =>
    intro s gs h
    have h' : elemMatcher e (matchElems rest) s = some gs := h
    cases e with
    | lit c =>
      cases s with
      | nil => exact absurd h' (by simp [elemMatcher])
      | cons x xs =>
        simp only [elemMatcher] at h'
        by_cases hx : x = c
        · rw [if_pos hx] at h'
          simpa [capKind] using ih xs gs h'
        · rw [if_neg hx] at h'
          exact absurd h' (by simp)
    | dotOpt =>
      cases s with
      | nil =>
        simp only [elemMatcher] at h'
        simpa [capKind] using ih [] gs h'
      | cons x xs =>
        simp only [elemMatcher] at h'
        by_cases hx : x = '.'
        · rw [if_pos hx] at h'
          rcases option_orElse_eq_some h' with h'' | h'' <;>
            simpa [capKind] using ih _ gs h''
        · rw [if_neg hx] at h'
          simpa [capKind] using ih _ gs h'
    | cs =>
      cases s with
      | nil =>
        simp only [elemMatcher] at h'
        simpa [capKind] using ih [] gs h'
      | cons x xs =>
        simp only [elemMatcher] at h'
        by_cases hx : isCS x = true
        · rw [if_pos hx] at h'
          rcases option_orElse_eq_some h' with h'' | h'' <;>
            simpa [capKind] using ih _ gs h''
        · rw [if_neg hx] at h'
          simpa [capKind] using ih _ gs h'
    | csGroup =>
      cases s with
      | nil =>
        simp only [elemMatcher] at h'
        obtain ⟨gs', hk', rfl⟩ := Option.map_eq_some'.mp h'
        simpa [capKind] using Fits.bnd [] _ gs' (Or.inl rfl) (ih [] gs' hk')
      | cons x xs =>
        simp only [elemMatcher] at h'
        by_cases hx : isCS x = true
        · rw [if_pos hx] at h'
          have hxv : x = '+' ∨ x = '.' := by
            have := hx
            simp only [isCS, Bool.or_eq_true, beq_iff_eq] at this
            exact this
          rcases option_orElse_eq_some h' with h'' | h''
          · obtain ⟨gs', hk', rfl⟩ := Option.map_eq_some'.mp h''
            have hg : ([x] : List Char) = [] ∨ [x] = ['+'] ∨ [x] = ['.'] := by
              rcases hxv with rfl | rfl
              · exact Or.inr (Or.inl rfl)
              · exact Or.inr (Or.inr rfl)
            simpa [capKind] using Fits.bnd [x] _ gs' hg (ih xs gs' hk')
          · obtain ⟨gs', hk', rfl⟩ := Option.map_eq_some'.mp h''
            simpa [capKind] using Fits.bnd [] _ gs' (Or.inl rfl) (ih _ gs' hk')
        · rw [if_neg hx] at h'
          obtain ⟨gs', hk', rfl⟩ := Option.map_eq_some'.mp h'
          simpa [capKind] using Fits.bnd [] _ gs' (Or.inl rfl) (ih _ gs' hk')
    | furiGroup =>
      simp only [elemMatcher] at h'
      obtain ⟨g, gs', rfl, hne, hfuri, hP⟩ :=
        goFuri_fits (fun s gs h => ih s gs h) s [] gs (by simp) h'
      simpa [capKind] using Fits.furi g _ gs' hne hfuri hP

theorem bodyElemsFrom_capKind (cs : List Char) :
    (bodyElemsFrom .kana cs).filterMap capKind =
      (bodyElemsFrom .other cs).filterMap capKind := by
  cases cs with
  | nil => rfl
  | cons c cs =>
    by_cases hk : isKanji c = true
    · simp [bodyElemsFrom, hk, capKind]
    · by_cases hn : isKana c = true
      · simp [bodyElemsFrom, hk, hn, capKind]
      · simp [bodyElemsFrom, hk, hn, capKind]

theorem drop_eq_cons_getD :
    ∀ (l : Groups) (i : Nat) (g : List Char) (rest : Groups),
      l.drop i = g :: rest → l.getD i [] = g ∧ l.drop (i + 1) = rest := by
  intro l
  induction l with
  | nil => intro i g rest h; simp at h
  | cons a l ih =>
    intro i g rest h
    cases i with
    | zero =>
      obtain ⟨rfl, rfl⟩ : a = g ∧ l = rest := by simpa using h
      simp
    | succ i =>
      have h' : l.drop i = g :: rest := by simpa using h
      simpa using ih i g rest h'

theorem beginsKanji_append (a b : List Char) (h : a ≠ []) :
    beginsKanji (a ++ b) = beginsKanji a := by
  cases a with
  | nil => exact absurd rfl h
  | cons x xs => rfl

theorem goodReading_append (s t : List Char) (hs : goodReading s)
    (ht : goodReading t) : goodReading (s ++ t) := by
  refine ⟨by simp [hs.1], ?_⟩
  intro ch hch
  rcases List.mem_append.mp hch with hch | hch
  · exact hs.2 ch hch
  · exact ht.2 ch hch

theorem reconLoop_kanji_clean (groups : Groups) :
    ∀ (cs : List Char) (last : LType) (idx : Nat) (curB curT : List Char)
      (res : List (List Char × List Char)),
      Fits ((bodyElemsFrom last cs).filterMap capKind) (groups.drop idx) →
      (∀ p ∈ res, beginsKanji p.1 = true → goodReading p.2) →
      (beginsKanji curB = true → goodReading curT) →
      (last = .kanji → beginsKanji curB = true) →
      ∀ p ∈ reconLoop (fun i => groups.getD i []) cs last idx curB curT res,
        beginsKanji p.1 = true → goodReading p.2 := by
  intro cs
  induction cs with
  | nil =>
    intro last idx curB curT res hfits hres hcur hlast p hp hb
    simp only [reconLoop] at hp
    rcases List.mem_append.mp hp with hp | hp
    · exact hres p hp hb
    · obtain rfl : p = (curB, curT) := by simpa using hp
      exact hcur hb
  | cons c cs ih =>
    intro last idx curB curT res hfits hres hcur hlast p hp hb
    simp only [reconLoop] at hp
    by_cases hk : isKanji c = true
    · rw [if_pos hk] at hp
      by_cases hl : last = LType.kanji
      · rw [if_pos hl] at hp
        subst hl
        have he : (bodyElemsFrom .kanji (c :: cs)).filterMap capKind =
            false :: true :: (bodyElemsFrom .kanji cs).filterMap capKind := by
          simp [bodyElemsFrom, hk, capKind]
        rw [he] at hfits
        cases hdrop : groups.drop idx with
        | nil => rw [hdrop] at hfits; cases hfits
        | cons g rest1 =>
          rw [hdrop] at hfits
          cases hfits with
          | bnd g0 ks gs hg hfits2 =>
            cases hdrop2 : rest1 with
            | nil => rw [hdrop2] at hfits2; cases hfits2
            | cons g1 rest2 =>
              rw [hdrop2] at hfits2
              cases hfits2 with
              | furi g1x ksx gsx hne hfuri hfits3 =>
                obtain ⟨hg0, hd1⟩ := drop_eq_cons_getD groups idx g rest1 hdrop
                obtain ⟨hg1, hd2⟩ :=
                  drop_eq_cons_getD groups (idx + 1) g1 rest2 (by rw [hd1, hdrop2])
                have hd2' : groups.drop (idx + 2) = rest2 := hd2
                have hbB : beginsKanji curB = true := hlast rfl
                have hBne : curB ≠ [] := by
                  intro hB
                  rw [hB] at hbB
                  simp [beginsKanji] at hbB
                by_cases hcn : groups.getD idx [] = ['+'] ∨ groups.getD idx [] = []
                · rw [if_pos hcn] at hp
                  refine ih .kanji (idx + 2) (curB ++ [c])
                    (curT ++ groups.getD (idx + 1) []) res ?_ hres ?_ ?_ p hp hb
                  · rw [hd2']
                    exact hfits3
                  · intro _
                    rw [hg1]
                    exact goodReading_append curT g1 (hcur hbB) ⟨hne, hfuri⟩
                  · intro _
                    rw [beginsKanji_append curB [c] hBne]
                    exact hbB
                · rw [if_neg hcn] at hp
                  refine ih .kanji (idx + 2) [c] (groups.getD (idx + 1) [])
                    (res ++ [(curB, curT)]) ?_ ?_ ?_ ?_ p hp hb
                  · rw [hd2']
                    exact hfits3
                  · intro q hq hqb
                    rcases List.mem_append.mp hq with hq | hq
                    · exact hres q hq hqb
                    · obtain rfl : q = (curB, curT) := by simpa using hq
                      exact hcur hqb
                  · intro _
                    rw [hg1]
                    exact ⟨hne, hfuri⟩
                  · intro _
                    simp [beginsKanji, hk]
      · rw [if_neg hl] at hp
        have he : (bodyElemsFrom last (c :: cs)).filterMap capKind =
            true :: (bodyElemsFrom .kanji cs).filterMap capKind := by
          cases last with
          | kanji => exact absurd rfl hl
          | kana => simp [bodyElemsFrom, hk, capKind]
          | other => simp [bodyElemsFrom, hk, capKind]
        rw [he] at hfits
        cases hdrop : groups.drop idx with
        | nil => rw [hdrop] at hfits; cases hfits
        | cons g rest1 =>
          rw [hdrop] at hfits
          cases hfits with
          | furi gx ksx gsx hne hfuri hfits2 =>
            obtain ⟨hg0, hd1⟩ := drop_eq_cons_getD groups idx g rest1 hdrop
            refine ih .kanji (idx + 1) [c] (groups.getD idx [])
              (if curB = [] then res else res ++ [(curB, curT)]) ?_ ?_ ?_ ?_ p hp hb
            · rw [hd1]
              exact hfits2
            · intro q hq hqb
              by_cases hB : curB = []
              · rw [if_pos hB] at hq
                exact hres q hq hqb
              · rw [if_neg hB] at hq
                rcases List.mem_append.mp hq with hq | hq
                · exact hres q hq hqb
                · obtain rfl : q = (curB, curT) := by simpa using hq
                  exact hcur hqb
            · intro _
              rw [hg0]
              exact ⟨hne, hfuri⟩
            · intro _
              simp [beginsKanji, hk]
    · rw [if_neg hk] at hp
      by_cases hl : last = LType.kanji
      · rw [if_pos hl] at hp
        subst hl
        have he : (bodyElemsFrom .kanji (c :: cs)).filterMap capKind =
            (bodyElemsFrom (if isKana c then .kana else .other) cs).filterMap
              capKind := by
          by_cases hn : isKana c = true <;> simp [bodyElemsFrom, hk, hn, capKind]
        rw [he] at hfits
        refine ih (if isKana c then .kana else .other) idx [c] []
          (res ++ [(curB, curT)]) hfits ?_ ?_ ?_ p hp hb
        · intro q hq hqb
          rcases List.mem_append.mp hq with hq | hq
          · exact hres q hq hqb
          · obtain rfl : q = (curB, curT) := by simpa using hq
            exact hcur hqb
        · intro hb'
          simp [beginsKanji, hk] at hb'
        · intro hEq
          by_cases hn : isKana c = true <;> simp [hn] at hEq
      · rw [if_neg hl] at hp
        have he : (bodyElemsFrom last (c :: cs)).filterMap capKind =
            (bodyElemsFrom last cs).filterMap capKind := by
          cases last with
          | kanji => exact absurd rfl hl
          | kana =>
            by_cases hn : isKana c = true
            · simp [bodyElemsFrom, hk, hn, capKind]
            · simp only [bodyElemsFrom, hk, hn]
              simp [capKind]
              exact (bodyElemsFrom_capKind cs).symm
          | other =>
            by_cases hn : isKana c = true
            · simp only [bodyElemsFrom, hk, hn]
              simp [capKind]
              exact bodyElemsFrom_capKind cs
            · simp [bodyElemsFrom, hk, hn, capKind]
        rw [he] at hfits
        refine ih last idx (curB ++ [c]) curT res hfits hres ?_ ?_ p hp hb
        · intro hb'
          by_cases hB : curB = []
          · rw [hB] at hb'
            simp [beginsKanji, hk] at hb'
          · rw [beginsKanji_append curB [c] hB] at hb'
            exact hcur hb'
        · intro hEq
          exact absurd hEq hl

/-- C10: in pattern-matching mode (no leading mode marker), whenever the
pattern built from the body matches the normalized reading (so no fallback
occurs), every output pair whose base segment begins with a logographic
character has a non-empty reading segment containing no ASCII `.` and no
ASCII `+`: such reading segments are concatenations of captures of the
`([^+.]+)` group. -/
theorem kanji_pairs_reading_clean (body toptext : List Char)
    (opts : FuriganaOptions) (groups : Groups)
    (h1 : toptext.head? ≠ some '=') (h2 : toptext.head? ≠ some '＝')
    (h3 : toptext.head? ≠ some '*') (h4 : toptext.head? ≠ some '＊')
    (hm : matchElems (bodyElems body) (cleanFurigana opts toptext) =
      some groups) :
    kanjiPairsClean (furigana body toptext opts) = true := by
  have hfu : furigana body toptext opts = reconstruct body groups := by
    unfold furigana
    rw [if_neg (by tauto), matchFurigana_eq body toptext opts (by tauto), hm]
  rw [hfu]
  have hfits : Fits ((bodyElemsFrom .other body).filterMap capKind)
      (groups.drop 0) := by
    simpa [bodyElems] using matchElems_fits (bodyElems body) _ groups hm
  have hmain := reconLoop_kanji_clean groups body .other 0 [] [] [] hfits
    (by simp) (by simp [beginsKanji]) (by simp)
  rw [kanjiPairsClean, List.all_eq_true]
  intro p hp
  by_cases hbk : beginsKanji p.1 = true
  · obtain ⟨hne, hall⟩ := hmain p hp hbk
    have hie : p.2.isEmpty = false := by
      cases hpt : p.2 with
      | nil => exact absurd hpt hne
      | cons a l => simp
    simp only [hbk, hie, Bool.not_true, Bool.not_false, Bool.false_or,
      Bool.true_and, List.all_eq_true]
    exact hall
  · simp [Bool.eq_false_iff.mpr hbk]

/-- C10 witness: the disambiguated-match example; the pair of the kanji 可
has reading か, non-empty and free of separator and combinator marks. -/
theorem kanji_pairs_reading_clean_witness :
    kanjiPairsClean (furigana "可愛い犬".data "か・わい・い・いぬ".data
      FuriganaOptions.new) = true :=
  kanji_pairs_reading_clean "可愛い犬".data "か・わい・い・いぬ".data
    FuriganaOptions.new [['か'], ['.'], ['わ', 'い'], ['い', 'ぬ']]
    (by decide) (by decide) (by decide) (by decide) (by decide)

end FuriganaPlus
